import Mathlib

/-!
A verification development for a bag-of-words document/term-matrix program
that exists in a serial reference implementation (serial.cpp) and an
MPI-parallel implementation (paralelo.cpp), orchestrated by main.cpp.

Modelling conventions of this shallow embedding:
* a byte is a `Nat` (always < 256 in practice, nothing below depends on it);
* a `std::string` is its byte list;
* `std::map<std::string,int>` is its sorted association list;
* `std::set<std::string>` is its sorted duplicate-free listing;
* the corpus is a `List Bytes`: entry `i` is the content that
  `read_file(document_paths[i])` yields, which is `""` both for an
  unreadable file and for an empty one (the source conflates the two);
* MPI collectives move data deterministically, so each gather is modelled
  as concatenation of the per-rank payloads in rank order (the
  displacements computed by rank 0 lay the blocks out exactly like that),
  and the broadcast hands every rank the same bytes.
-/

namespace BoW

/-- A byte string: the bytes of a `std::string` in order. -/
abbrev Bytes := List Nat

/-- A per-document term-count table (`std::map<std::string,int>`), modelled
as an association list sorted strictly by key. -/
abbrev CountMap := List (Bytes × Nat)

/-- `std::tolower` in the C locale: maps A-Z to a-z, leaves every other
byte unchanged. -/
def toLowerByte (b : Nat) : Nat := if 65 ≤ b ∧ b ≤ 90 then b + 32 else b

/-- `std::isalnum` in the C locale on a byte. -/
def isAlnumByte (b : Nat) : Bool :=
  decide ((48 ≤ b ∧ b ≤ 57) ∨ (65 ≤ b ∧ b ≤ 90) ∨ (97 ≤ b ∧ b ≤ 122))

/-- The term-forming test of `tokenize_document`: the source lowercases the
byte first and then checks `std::isalnum(lower) || lower == '_'`. -/
def isTermByte (b : Nat) : Bool :=
  isAlnumByte (toLowerByte b) || decide (toLowerByte b = 95)

/-- The scanning loop of `tokenize_document`; `cur` is `current_token`. -/
def tokenizeGo : List Nat → Bytes → List Bytes
  | [], cur => if cur = [] then [] else [cur]
  | b :: rest, cur =>
      if isTermByte b then tokenizeGo rest (cur ++ [toLowerByte b])
      else if cur = [] then tokenizeGo rest [] else cur :: tokenizeGo rest []

/-- `tokenize_document` (textually identical in serial.cpp and
paralelo.cpp): lowercase, accumulate alphanumeric/underscore runs, emit a
run when a separator or the end of input is reached, drop empty runs. -/
def tokenize_document (content : List Nat) : List Bytes := tokenizeGo content []

/-- `operator<` on `std::string`: lexicographic comparison of the raw bytes
(`std::char_traits<char>` compares as unsigned char). -/
def bytesLt : Bytes → Bytes → Bool
  | _, [] => false
  | [], _ :: _ => true
  | a :: as, b :: bs => decide (a < b) || (decide (a = b) && bytesLt as bs)

/-- `++word_counts[token]` on a `std::map` modelled as a sorted association
list: insert the key with count 1, or increment an existing count. -/
def mapBump (w : Bytes) : CountMap → CountMap
  | [] => [(w, 1)]
  | (k, v) :: rest =>
      if bytesLt w k then (w, 1) :: (k, v) :: rest
      else if bytesLt k w then (k, v) :: mapBump w rest
      else (k, v + 1) :: rest

/-- `count_tokens` (identical in serial.cpp and paralelo.cpp): build the
per-document term-frequency map by bumping each token in order. -/
def count_tokens (tokens : List Bytes) : CountMap :=
  tokens.foldl (fun m t => mapBump t m) []

/-- The keys of a count map, in storage (sorted) order. -/
def mapKeys (m : CountMap) : List Bytes := m.map (fun kv => kv.1)

/-- `std::map::find`, as an association-list lookup. -/
def mapLookup : CountMap → Bytes → Option Nat
  | [], _ => none
  | (k, v) :: rest, w => if w = k then some v else mapLookup rest w

/-- `std::set<std::string>::insert`, acting on the set's sorted listing. -/
def setInsert (w : Bytes) : List Bytes → List Bytes
  | [] => [w]
  | k :: rest =>
      if bytesLt w k then w :: k :: rest
      else if bytesLt k w then k :: setInsert w rest
      else k :: rest

/-- Inserting every key of a sequence of count maps into an ordered
container, in iteration order.  This models both `build_vocabulary`'s
`std::map` of unique tokens (serial.cpp; its payload value 0 is irrelevant,
only the sorted key list survives) and the `std::set`s of paralelo.cpp. -/
def vocabFold (ms : List CountMap) (acc : List Bytes) : List Bytes :=
  ms.foldl (fun a m => (mapKeys m).foldl (fun a2 w => setInsert w a2) a) acc

/-- `build_vocabulary` (serial.cpp): the sorted duplicate-free union of the
keys of every document's count map. -/
def build_vocabulary (document_counts : List CountMap) : List Bytes :=
  vocabFold document_counts []

/-- `build_matrix` (serial.cpp): one dense row per document, entry `i` being
the document's count of `vocabulary[i]` and 0 when the word is absent. -/
def build_matrix (document_counts : List CountMap) (vocabulary : List Bytes) :
    List (List Nat) :=
  document_counts.map (fun m => vocabulary.map (fun w => (mapLookup m w).getD 0))

/-- `join_words_with_newline` (paralelo.cpp): append each word followed by a
newline byte. -/
def join_words_with_newline (words : List Bytes) : Bytes :=
  words.foldl (fun s w => s ++ w ++ [10]) []

/-- The scanning loop of `split_by_newline`; `cur` is `current`. -/
def splitGo : Bytes → Bytes → List Bytes
  | [], cur => if cur = [] then [] else [cur]
  | c :: rest, cur =>
      if c = 10 then (if cur = [] then splitGo rest [] else cur :: splitGo rest [])
      else splitGo rest (cur ++ [c])

/-- `split_by_newline` (paralelo.cpp): split on newline bytes, discarding
empty pieces. -/
def split_by_newline (data : Bytes) : List Bytes := splitGo data []

/-- The round-robin partition loop `for (idx = rank; idx < D; idx += W)` of
run_parallel: iteration `k` visits index `r + k * W`, and the loop runs
while that index is `< D`, i.e. for `⌈(D - r) / W⌉` iterations. -/
def partitionIndices (D W r : Nat) : List Nat :=
  (List.range ((D - r + W - 1) / W)).map (fun k => r + k * W)

/-- Reading the documents at a list of indices in order and skipping those
whose content is empty (`if (content.empty()) continue;`), keeping each
surviving index with its content. -/
def docPairs (contents : List Bytes) (idxs : List Nat) : List (Nat × Bytes) :=
  idxs.filterMap (fun i =>
    if contents.getD i [] = [] then none else some (i, contents.getD i []))

/-- Tokenizing and counting each surviving document: the shared
read/tokenize/count loop body of run_serial and run_parallel, applied to a
given traversal order of document indices. -/
def countPairs (contents : List Bytes) (idxs : List Nat) : List (Nat × CountMap) :=
  (docPairs contents idxs).map (fun p => (p.1, count_tokens (tokenize_document p.2)))

/-- The per-worker read/tokenize/count loop of run_parallel, i.e.
`local_doc_indices` zipped with `local_counts` for rank `r` of `W`. -/
def localPairs (contents : List Bytes) (W r : Nat) : List (Nat × CountMap) :=
  countPairs contents (partitionIndices contents.length W r)

/-- `local_vocab` of worker `r`: every key of every local count map inserted
into a `std::set`. -/
def localVocab (contents : List Bytes) (W r : Nat) : List Bytes :=
  vocabFold ((localPairs contents W r).map (fun p => p.2)) []

/-- `global_vocab_set` at rank 0: the gathered buffer holds worker `r`'s
serialized listing at displacement `r`'s offset; the coordinator splits each
chunk back into words and inserts them into one set.  (A zero-length chunk
is skipped by the source, and splitting it yields no words anyway.) -/
def globalVocabSet (contents : List Bytes) (W : Nat) : List Bytes :=
  (List.range W).foldl
    (fun acc r =>
      (split_by_newline (join_words_with_newline (localVocab contents W r))).foldl
        (fun a w => setInsert w a) acc)
    []

/-- `broadcast_vocab`: rank 0 re-serializes the unioned set (the source
inlines the same word-plus-newline loop as join_words_with_newline). -/
def broadcastVocab (contents : List Bytes) (W : Nat) : Bytes :=
  join_words_with_newline (globalVocabSet contents W)

/-- `global_vocabulary` as worker `r` deserializes it after the broadcast;
every rank receives the same bytes, so `r` does not occur on the right. -/
def workerVocabulary (contents : List Bytes) (W r : Nat) : List Bytes :=
  split_by_newline (broadcastVocab contents W)

/-- `vocab_index` lookup: the `std::unordered_map` is filled with `emplace`
over vocabulary positions in increasing order, so a term maps to its first
position in the vocabulary. -/
def findIndexOf (w : Bytes) : List Bytes → Option Nat
  | [] => none
  | v :: rest => if v = w then some 0 else (findIndexOf w rest).map (fun p => p + 1)

/-- The local row construction of run_parallel: start from a zero row of
vocabulary length and store each counted term's count at its vocabulary
position; a term missing from the vocabulary leaves the row unchanged. -/
def buildRowParallel (vocab : List Bytes) (m : CountMap) : List Nat :=
  m.foldl
    (fun row kv =>
      match findIndexOf kv.1 vocab with
      | some p => row.set p kv.2
      | none => row)
    (List.replicate vocab.length 0)

/-- The comparison `lhs.first < rhs.first` used to re-order gathered rows,
as a non-strict relation for sorting.  `std::sort` produces some permutation
sorted by the comparison; the gathered document indices are pairwise
distinct (proved below), so that sorted permutation is unique and any
comparison sort models it; Mathlib's insertionSort is used. -/
def rowPairLe (a b : Nat × List Nat) : Prop := a.1 ≤ b.1

instance : DecidableRel rowPairLe := fun a b => Nat.decLe a.1 b.1

instance : IsTotal (Nat × List Nat) rowPairLe := ⟨fun a b => Nat.le_total a.1 b.1⟩

instance : IsTrans (Nat × List Nat) rowPairLe := ⟨fun _ _ _ => Nat.le_trans⟩

/-- The data a run writes to its CSV: the vocabulary (header columns), the
count matrix, and the document indices of the rows in order (the display
names written in column one are the base names of the paths at exactly
these indices, in this order). -/
structure RunOutput where
  vocabulary : List Bytes
  matrix : List (List Nat)
  docs : List Nat
  deriving DecidableEq, Repr

/-- `run_serial`, abstracted to the CSV content it writes: `none` when no
file is written (empty path list, or no document yields nonempty content). -/
def serialRun (contents : List Bytes) : Option RunOutput :=
  if contents = [] then none else
  let pairs := countPairs contents (List.range contents.length)
  if pairs = [] then none else
  let vocabulary := build_vocabulary (pairs.map (fun p => p.2))
  some ⟨vocabulary, build_matrix (pairs.map (fun p => p.2)) vocabulary,
        pairs.map (fun p => p.1)⟩

/-- The `(document index, row)` pairs present at rank 0 after the two data
gathers, in rank-major order (worker `r`'s block sits at the displacement
following workers `0..r-1`, and the index gather and the value gather use
the same layout scaled by the vocabulary size, so position pairing is
exact), each row built against the broadcast vocabulary. -/
def gatheredRows (contents : List Bytes) (W : Nat) : List (Nat × List Nat) :=
  (List.range W).flatMap (fun r =>
    (localPairs contents W r).map
      (fun p => (p.1, buildRowParallel (workerVocabulary contents W 0) p.2)))

/-- Whether run_parallel reaches the synchronization collectives: the only
return before the first MPI_Gather is the empty-document-list guard. -/
def parallelReachesSync (contents : List Bytes) : Bool := decide (contents ≠ [])

/-- `run_parallel`, abstracted to the CSV content rank 0 writes: `none` when
no file is written (empty path list, or zero gathered rows). -/
def parallelRun (contents : List Bytes) (W : Nat) : Option RunOutput :=
  if contents = [] then none else
  let vocabulary := workerVocabulary contents W 0
  let ordered := List.insertionSort rowPairLe (gatheredRows contents W)
  if ordered = [] then none else
  some ⟨vocabulary, ordered.map (fun p => p.2), ordered.map (fun p => p.1)⟩

/-- Convenience for writing concrete corpora: the bytes of an ASCII string. -/
def strBytes (s : String) : Bytes := s.data.map Char.toNat

/-- Strictly sorted in the `std::string` ordering (hence duplicate-free). -/
def SortedBytes (l : List Bytes) : Prop :=
  List.Pairwise (fun a b => bytesLt a b = true) l

instance (l : List Bytes) : Decidable (SortedBytes l) :=
  inferInstanceAs (Decidable (List.Pairwise (fun a b => bytesLt a b = true) l))

/-- A byte that may occur in an emitted token: lowercase alphanumeric or
underscore (used to state the tokenizer's output invariant). -/
def isLowerTermByte (b : Nat) : Bool :=
  decide ((48 ≤ b ∧ b ≤ 57) ∨ (97 ≤ b ∧ b ≤ 122) ∨ b = 95)

/-- The specification's description of tokenization, stated independently of
the scanning loop: the maximal runs of term-forming bytes (the pieces that
`splitOnP` cuts at non-term-forming bytes), each lowercased, empty runs
discarded. -/
def specTokenRuns (content : List Nat) : List Bytes :=
  ((content.splitOnP (fun b => !isTermByte b)).map (List.map toLowerByte)).filter
    (fun t => decide (t ≠ []))

/-! ### The byte-string order is a strict total order -/

lemma bytesLt_irrefl : ∀ l : Bytes, bytesLt l l = false := by
  intro l
  induction l with
  | nil => rfl
  | cons a as ih => simp [bytesLt, ih]

lemma bytesLt_trans : ∀ {a b c : Bytes},
    bytesLt a b = true → bytesLt b c = true → bytesLt a c = true := by
  intro a
  induction a with
  | nil =>
      intro b c h1 h2
      cases b with
      | nil => cases h1
      | cons y bs =>
          cases c with
          | nil => cases h2
          | cons z cs => rfl
  | cons x as ih =>
      intro b c h1 h2
      cases b with
      | nil => cases h1
      | cons y bs =>
          cases c with
          | nil => cases h2
          | cons z cs =>
              simp only [bytesLt, Bool.or_eq_true, Bool.and_eq_true,
                decide_eq_true_eq] at h1 h2 ⊢
              rcases h1 with h1 | ⟨rfl, h1⟩
              · rcases h2 with h2 | ⟨rfl, _⟩
                · exact Or.inl (Nat.lt_trans h1 h2)
                · exact Or.inl h1
              · rcases h2 with h2 | ⟨rfl, h2⟩
                · exact Or.inl h2
                · exact Or.inr ⟨rfl, ih h1 h2⟩

lemma bytesLt_conn : ∀ {a b : Bytes},
    bytesLt a b = false → bytesLt b a = false → a = b := by
  intro a
  induction a with
  | nil =>
      intro b h1 _
      cases b with
      | nil => rfl
      | cons y bs => cases h1
  | cons x as ih =>
      intro b h1 h2
      cases b with
      | nil => cases h2
      | cons y bs =>
          simp only [bytesLt, Bool.or_eq_false_iff, Bool.and_eq_false_iff,
            decide_eq_false_iff_not] at h1 h2
          obtain ⟨hxy, h1'⟩ := h1
          obtain ⟨hyx, h2'⟩ := h2
          have hx : x = y := by omega
          subst hx
          rcases h1' with h | h
          · exact absurd rfl h
          · rcases h2' with h' | h'
            · exact absurd rfl h'
            · rw [ih h h']

lemma bytesLt_asymm {a b : Bytes} (h : bytesLt a b = true) : bytesLt b a = false := by
  cases hba : bytesLt b a
  · rfl
  · have := bytesLt_trans h hba
    rw [bytesLt_irrefl] at this
    cases this

/-! ### Ordered-set and ordered-map operations -/

lemma mem_setInsert {x w : Bytes} :
    ∀ {l : List Bytes}, x ∈ setInsert w l ↔ x = w ∨ x ∈ l := by
  intro l
  induction l with
  | nil => simp [setInsert]
  | cons k rest ih =>
      simp only [setInsert]
      split
      · simp only [List.mem_cons]
      · split
        · simp only [List.mem_cons, ih]
          tauto
        · rename_i h1 h2
          rw [Bool.not_eq_true] at h1 h2
          simp only [List.mem_cons]
          constructor
          · tauto
          · rintro (rfl | h)
            · exact Or.inl (bytesLt_conn h1 h2)
            · exact h

lemma sorted_setInsert {w : Bytes} :
    ∀ {l : List Bytes}, SortedBytes l → SortedBytes (setInsert w l) := by
  intro l
  induction l with
  | nil =>
      intro _
      simp [SortedBytes, setInsert]
  | cons k rest ih =>
      intro h
      rw [SortedBytes, List.pairwise_cons] at h
      obtain ⟨hk, hrest⟩ := h
      simp only [setInsert]
      split
      · rename_i h1
        rw [SortedBytes, List.pairwise_cons]
        refine ⟨?_, ?_⟩
        · intro y hy
          rcases List.mem_cons.mp hy with rfl | hy'
          · exact h1
          · exact bytesLt_trans h1 (hk y hy')
        · rw [SortedBytes] at *
          exact List.pairwise_cons.mpr ⟨hk, hrest⟩
      · split
        · rename_i h1 h2
          rw [SortedBytes, List.pairwise_cons]
          refine ⟨?_, ih hrest⟩
          intro y hy
          rcases mem_setInsert.mp hy with rfl | hy'
          · exact h2
          · exact hk y hy'
        · rw [SortedBytes, List.pairwise_cons]
          exact ⟨hk, hrest⟩

lemma mem_foldl_setInsert {x : Bytes} :
    ∀ (ws : List Bytes) (acc : List Bytes),
      x ∈ ws.foldl (fun a w => setInsert w a) acc ↔ x ∈ acc ∨ x ∈ ws := by
  intro ws
  induction ws with
  | nil => simp
  | cons w rest ih =>
      intro acc
      simp only [List.foldl_cons, ih, mem_setInsert, List.mem_cons]
      tauto

lemma sorted_foldl_setInsert :
    ∀ (ws : List Bytes) {acc : List Bytes}, SortedBytes acc →
      SortedBytes (ws.foldl (fun a w => setInsert w a) acc) := by
  intro ws
  induction ws with
  | nil => intro acc h; exact h
  | cons w rest ih =>
      intro acc h
      exact ih (sorted_setInsert h)

lemma mem_vocabFold {x : Bytes} :
    ∀ (ms : List CountMap) (acc : List Bytes),
      x ∈ vocabFold ms acc ↔ x ∈ acc ∨ ∃ m ∈ ms, x ∈ mapKeys m := by
  intro ms
  induction ms with
  | nil => simp [vocabFold]
  | cons m rest ih =>
      intro acc
      simp only [vocabFold, List.foldl_cons] at *
      rw [ih, mem_foldl_setInsert]
      simp only [List.mem_cons]
      constructor
      · rintro ((h | h) | ⟨m', hm', hx⟩)
        · exact Or.inl h
        · exact Or.inr ⟨m, Or.inl rfl, h⟩
        · exact Or.inr ⟨m', Or.inr hm', hx⟩
      · rintro (h | ⟨m', hm' | hm', hx⟩)
        · exact Or.inl (Or.inl h)
        · subst hm'; exact Or.inl (Or.inr hx)
        · exact Or.inr ⟨m', hm', hx⟩

lemma sorted_vocabFold :
    ∀ (ms : List CountMap) {acc : List Bytes}, SortedBytes acc →
      SortedBytes (vocabFold ms acc) := by
  intro ms
  induction ms with
  | nil => intro acc h; exact h
  | cons m rest ih =>
      intro acc h
      simp only [vocabFold, List.foldl_cons] at *
      exact ih (sorted_foldl_setInsert _ h)

lemma SortedBytes.nodup {l : List Bytes} (h : SortedBytes l) : l.Nodup := by
  refine h.imp ?_
  intro a b hab
  intro hEq
  subst hEq
  rw [bytesLt_irrefl] at hab
  cases hab

/-- Two strictly sorted listings with the same members are equal. -/
lemma sortedBytes_ext {l₁ l₂ : List Bytes} (h₁ : SortedBytes l₁)
    (h₂ : SortedBytes l₂) (hm : ∀ x, x ∈ l₁ ↔ x ∈ l₂) : l₁ = l₂ := by
  have hp : l₁.Perm l₂ := (List.perm_ext_iff_of_nodup h₁.nodup h₂.nodup).mpr hm
  exact @List.eq_of_perm_of_sorted _ (fun a b => bytesLt a b = true)
    ⟨fun a b hab hba => absurd hba (by simp [bytesLt_asymm hab])⟩ _ _ hp h₁ h₂

lemma mem_keys_mapBump {x w : Bytes} :
    ∀ {m : CountMap}, x ∈ mapKeys (mapBump w m) ↔ x = w ∨ x ∈ mapKeys m := by
  intro m
  induction m with
  | nil => simp [mapBump, mapKeys]
  | cons kv rest ih =>
      obtain ⟨k, v⟩ := kv
      simp only [mapBump]
      split
      · simp [mapKeys]
      · split
        · simp only [mapKeys, List.map_cons, List.mem_cons] at *
          rw [ih]
          tauto
        · rename_i h1 h2
          rw [Bool.not_eq_true] at h1 h2
          simp only [mapKeys, List.map_cons, List.mem_cons] at *
          constructor
          · tauto
          · rintro (rfl | h)
            · exact Or.inl (bytesLt_conn h1 h2)
            · exact h

lemma sortedKeys_mapBump {w : Bytes} :
    ∀ {m : CountMap}, SortedBytes (mapKeys m) → SortedBytes (mapKeys (mapBump w m)) := by
  intro m
  induction m with
  | nil =>
      intro _
      simp [SortedBytes, mapBump, mapKeys]
  | cons kv rest ih =>
      obtain ⟨k, v⟩ := kv
      intro h
      simp only [mapKeys, List.map_cons] at h
      rw [SortedBytes, List.pairwise_cons] at h
      obtain ⟨hk, hrest⟩ := h
      simp only [mapBump]
      split
      · rename_i h1
        simp only [mapKeys, List.map_cons]
        rw [SortedBytes, List.pairwise_cons]
        refine ⟨?_, ?_⟩
        · intro y hy
          rcases List.mem_cons.mp hy with rfl | hy'
          · exact h1
          · exact bytesLt_trans h1 (hk y hy')
        · exact List.pairwise_cons.mpr ⟨hk, hrest⟩
      · split
        · rename_i h1 h2
          simp only [mapKeys, List.map_cons]
          rw [SortedBytes, List.pairwise_cons]
          refine ⟨?_, ih hrest⟩
          intro y hy
          rcases mem_keys_mapBump.mp hy with rfl | hy'
          · exact h2
          · exact hk y hy'
        · simp only [mapKeys, List.map_cons]
          rw [SortedBytes, List.pairwise_cons]
          exact ⟨hk, hrest⟩

lemma sortedKeys_count_aux :
    ∀ (ts : List Bytes) (m : CountMap), SortedBytes (mapKeys m) →
      SortedBytes (mapKeys (ts.foldl (fun acc t => mapBump t acc) m)) := by
  intro ts
  induction ts with
  | nil => intro m h; exact h
  | cons t rest ih =>
      intro m h
      exact ih _ (sortedKeys_mapBump h)

/-- The keys of a term-count map are strictly sorted (so duplicate-free). -/
lemma sortedKeys_count (ts : List Bytes) : SortedBytes (mapKeys (count_tokens ts)) :=
  sortedKeys_count_aux ts [] (by simp [SortedBytes, mapKeys])

lemma mem_keys_count_aux {x : Bytes} :
    ∀ (ts : List Bytes) (m : CountMap),
      x ∈ mapKeys (ts.foldl (fun acc t => mapBump t acc) m) ↔
        x ∈ mapKeys m ∨ x ∈ ts := by
  intro ts
  induction ts with
  | nil => simp
  | cons t rest ih =>
      intro m
      simp only [List.foldl_cons, ih, mem_keys_mapBump, List.mem_cons]
      tauto

/-- A term is a key of a document's count map iff it occurs in its tokens. -/
lemma mem_keys_count {x : Bytes} (ts : List Bytes) :
    x ∈ mapKeys (count_tokens ts) ↔ x ∈ ts := by
  rw [count_tokens, mem_keys_count_aux]
  simp [mapKeys]

lemma mapLookup_eq_none {w : Bytes} :
    ∀ {m : CountMap}, mapLookup m w = none ↔ w ∉ mapKeys m := by
  intro m
  induction m with
  | nil => simp [mapLookup, mapKeys]
  | cons kv rest ih =>
      obtain ⟨k, v⟩ := kv
      simp only [mapLookup, mapKeys, List.map_cons, List.mem_cons]
      split
      · rename_i h
        subst h
        simp
      · rename_i h
        rw [ih]
        simp only [mapKeys]
        tauto

/-! ### Tokenizer -/

lemma isLowerTermByte_of_isTermByte {b : Nat} (h : isTermByte b = true) :
    isLowerTermByte (toLowerByte b) = true := by
  by_cases hb : 65 ≤ b ∧ b ≤ 90
  · simp only [isTermByte, isAlnumByte, toLowerByte, if_pos hb, isLowerTermByte,
      Bool.or_eq_true, decide_eq_true_eq] at h ⊢
    omega
  · simp only [isTermByte, isAlnumByte, toLowerByte, if_neg hb, isLowerTermByte,
      Bool.or_eq_true, decide_eq_true_eq] at h ⊢
    omega

lemma tokenizeGo_good :
    ∀ (content : List Nat) (cur : Bytes),
      (∀ b ∈ cur, isLowerTermByte b = true) →
      ∀ t ∈ tokenizeGo content cur, t ≠ [] ∧ ∀ b ∈ t, isLowerTermByte b = true := by
  intro content
  induction content with
  | nil =>
      intro cur hcur t ht
      simp only [tokenizeGo] at ht
      split at ht
      · cases ht
      · rename_i hne
        rcases List.mem_singleton.mp ht with rfl
        exact ⟨hne, hcur⟩
  | cons b rest ih =>
      intro cur hcur t ht
      simp only [tokenizeGo] at ht
      split at ht
      · rename_i hb
        refine ih _ ?_ t ht
        intro b' hb'
        rcases List.mem_append.mp hb' with h | h
        · exact hcur b' h
        · rcases List.mem_singleton.mp h with rfl
          exact isLowerTermByte_of_isTermByte hb
      · split at ht
        · exact ih [] (by simp) t ht
        · rename_i hne
          rcases List.mem_cons.mp ht with rfl | ht'
          · exact ⟨hne, hcur⟩
          · exact ih [] (by simp) t ht'

/-- Every emitted token is nonempty and made only of lowercase
alphanumeric/underscore bytes. -/
lemma tokenize_document_good {content : List Nat} {t : Bytes}
    (ht : t ∈ tokenize_document content) :
    t ≠ [] ∧ ∀ b ∈ t, isLowerTermByte b = true :=
  tokenizeGo_good content [] (by simp) t ht

lemma not_mem_of_all_lower {t : Bytes} {b : Nat}
    (h : ∀ b' ∈ t, isLowerTermByte b' = true) (hb : isLowerTermByte b = false) :
    b ∉ t := by
  intro hmem
  have := h b hmem
  rw [hb] at this
  cases this

/-- The scanning loop agrees with the maximal-run description, for any
partially accumulated token. -/
lemma tokenizeGo_eq_runs :
    ∀ (content : List Nat) (cur : Bytes),
      tokenizeGo content cur =
        ((cur ++ (content.splitOnP (fun b => !isTermByte b)).headI.map toLowerByte) ::
          (content.splitOnP (fun b => !isTermByte b)).tail.map (List.map toLowerByte)).filter
          (fun t => decide (t ≠ [])) := by
  intro content
  induction content with
  | nil =>
      intro cur
      simp only [tokenizeGo, List.splitOnP_nil, List.headI, List.tail_cons,
        List.map_nil, List.append_nil, List.filter_cons, List.filter_nil]
      by_cases h : cur = []
      · subst h; simp
      · simp [h]
  | cons b rest ih =>
      intro cur
      obtain ⟨h', t', hsplit⟩ : ∃ h' t',
          rest.splitOnP (fun b => !isTermByte b) = h' :: t' := by
        cases hs : rest.splitOnP (fun b => !isTermByte b) with
        | nil => exact absurd hs (List.splitOnP_ne_nil _ _)
        | cons x xs => exact ⟨x, xs, rfl⟩
      by_cases hb : isTermByte b = true
      · simp only [tokenizeGo, hb, if_true]
        rw [ih, List.splitOnP_cons, hsplit]
        simp only [hb, Bool.not_true, Bool.false_eq_true, if_false,
          List.modifyHead_cons, List.headI, List.tail_cons, List.map_cons,
          List.append_assoc, List.singleton_append]
      · rw [Bool.not_eq_true] at hb
        simp only [tokenizeGo, hb, Bool.false_eq_true, if_false]
        rw [List.splitOnP_cons, hsplit]
        simp only [hb, Bool.not_false, if_true, List.headI, List.tail_cons,
          List.map_nil, List.append_nil, List.map_cons, List.filter_cons]
        rw [ih, hsplit]
        simp only [List.headI, List.tail_cons, List.nil_append, List.filter_cons]
        by_cases hcur : cur = []
        · subst hcur
          simp
        · simp [hcur]

/-! ### Newline serialization round-trip -/

lemma join_words_eq_flatten :
    ∀ (ws : List Bytes) (acc : Bytes),
      ws.foldl (fun s w => s ++ w ++ [10]) acc =
        acc ++ (ws.map (fun w => w ++ [10])).flatten := by
  intro ws
  induction ws with
  | nil => simp
  | cons w rest ih =>
      intro acc
      rw [List.foldl_cons, ih]
      simp [List.append_assoc]

lemma splitGo_word_newline :
    ∀ (w : Bytes), (10 : Nat) ∉ w → ∀ (cur rest : Bytes),
      splitGo (w ++ 10 :: rest) cur =
        if cur ++ w = [] then splitGo rest [] else (cur ++ w) :: splitGo rest [] := by
  intro w
  induction w with
  | nil =>
      intro _ cur rest
      simp [splitGo]
  | cons c w' ih =>
      intro hw cur rest
      have hc : c ≠ 10 := by
        intro h
        exact hw (h ▸ List.mem_cons_self c w')
      simp only [List.cons_append, splitGo, if_neg hc, List.append_eq]
      rw [ih (fun h => hw (List.mem_cons_of_mem c h)) (cur ++ [c]) rest]
      have hne : cur ++ c :: w' ≠ [] := by simp
      simp only [List.append_assoc, List.singleton_append, if_neg hne]

/-- Round-trip: splitting the newline-joined serialization of a listing of
nonempty newline-free words returns exactly that listing. -/
lemma split_join {ws : List Bytes} (h : ∀ w ∈ ws, w ≠ [] ∧ (10 : Nat) ∉ w) :
    split_by_newline (join_words_with_newline ws) = ws := by
  induction ws with
  | nil => rfl
  | cons w rest ih =>
      obtain ⟨hne, hten⟩ := h w (List.mem_cons_self w rest)
      have hjoin : join_words_with_newline (w :: rest) =
          w ++ 10 :: join_words_with_newline rest := by
        simp only [join_words_with_newline, join_words_eq_flatten]
        simp [List.append_assoc]
      rw [hjoin, split_by_newline, splitGo_word_newline w hten [] _,
        List.nil_append, if_neg hne]
      rw [show splitGo (join_words_with_newline rest) [] =
        split_by_newline (join_words_with_newline rest) from rfl]
      rw [ih (fun w' hw' => h w' (List.mem_cons_of_mem w hw'))]

/-! ### The round-robin partition -/

lemma lt_ceilDiv {W k a : Nat} (hW : 1 ≤ W) : k < (a + W - 1) / W ↔ k * W < a := by
  constructor
  · intro h
    have h1 : k + 1 ≤ (a + W - 1) / W := h
    have h2 : (k + 1) * W ≤ a + W - 1 := (Nat.le_div_iff_mul_le hW).mp h1
    have h3 : (k + 1) * W = k * W + W := by ring
    clear h h1
    omega
  · intro h
    refine (Nat.le_div_iff_mul_le hW).mpr ?_
    show (k + 1) * W ≤ a + W - 1
    have h3 : (k + 1) * W = k * W + W := by ring
    omega

lemma mem_partitionIndices {D W r i : Nat} (hW : 1 ≤ W) :
    i ∈ partitionIndices D W r ↔ (∃ k, i = r + k * W) ∧ i < D := by
  simp only [partitionIndices, List.mem_map, List.mem_range]
  constructor
  · rintro ⟨k, hk, rfl⟩
    rw [lt_ceilDiv hW] at hk
    exact ⟨⟨k, rfl⟩, by omega⟩
  · rintro ⟨⟨k, rfl⟩, hD⟩
    exact ⟨k, (lt_ceilDiv hW).mpr (by omega), rfl⟩

lemma mem_partitionIndices_mod {D W r i : Nat} (hW : 1 ≤ W) (hr : r < W) :
    i ∈ partitionIndices D W r ↔ i < D ∧ i % W = r := by
  rw [mem_partitionIndices hW]
  constructor
  · rintro ⟨⟨k, rfl⟩, hD⟩
    refine ⟨hD, ?_⟩
    rw [Nat.add_mul_mod_self_right]
    exact Nat.mod_eq_of_lt hr
  · rintro ⟨hD, hmod⟩
    refine ⟨⟨i / W, ?_⟩, hD⟩
    have h2 := Nat.div_add_mod i W
    rw [hmod, Nat.mul_comm] at h2
    omega

lemma pairwise_lt_partitionIndices (D W r : Nat) (hW : 1 ≤ W) :
    List.Pairwise (· < ·) (partitionIndices D W r) := by
  rw [partitionIndices, List.pairwise_map]
  refine (List.pairwise_lt_range _).imp ?_
  intro k k' hkk'
  exact Nat.add_lt_add_left (Nat.mul_lt_mul_of_pos_right hkk' hW) r

lemma nodup_partitionIndices (D W r : Nat) (hW : 1 ≤ W) :
    (partitionIndices D W r).Nodup :=
  (pairwise_lt_partitionIndices D W r hW).imp Nat.ne_of_lt

lemma nodup_flatMap_partition {D W : Nat} (hW : 1 ≤ W) :
    ∀ (rs : List Nat), rs.Nodup → (∀ r ∈ rs, r < W) →
      (rs.flatMap (fun r => partitionIndices D W r)).Nodup := by
  intro rs
  induction rs with
  | nil => intro _ _; simp
  | cons r rest ih =>
      intro hnd hlt
      rw [List.nodup_cons] at hnd
      rw [List.flatMap_cons]
      refine List.Nodup.append (nodup_partitionIndices D W r hW)
        (ih hnd.2 (fun r' hr' => hlt r' (List.mem_cons_of_mem r hr'))) ?_
      intro i hi hi'
      rw [List.mem_flatMap] at hi'
      obtain ⟨r', hr', hir'⟩ := hi'
      have h1 := (mem_partitionIndices_mod hW (hlt r (List.mem_cons_self r rest))).mp hi
      have h2 := (mem_partitionIndices_mod hW
        (hlt r' (List.mem_cons_of_mem r hr'))).mp hir'
      exact hnd.1 (by rw [← h1.2, h2.2]; exact hr')

/-- The round-robin blocks of all `W` workers, concatenated in rank order,
are a permutation of all document indices. -/
lemma flatMap_partition_perm (D W : Nat) (hW : 1 ≤ W) :
    ((List.range W).flatMap (fun r => partitionIndices D W r)).Perm
      (List.range D) := by
  refine (List.perm_ext_iff_of_nodup ?_ (List.nodup_range D)).mpr ?_
  · exact nodup_flatMap_partition hW (List.range W) (List.nodup_range W)
      (fun r hr => List.mem_range.mp hr)
  · intro i
    simp only [List.mem_flatMap, List.mem_range]
    constructor
    · rintro ⟨r, hr, hi⟩
      exact ((mem_partitionIndices_mod hW hr).mp hi).1
    · intro hi
      refine ⟨i % W, Nat.mod_lt i hW, ?_⟩
      rw [mem_partitionIndices_mod hW (Nat.mod_lt i hW)]
      exact ⟨hi, rfl⟩

/-! ### Reading and filtering documents -/

lemma mem_docPairs {contents : List Bytes} {idxs : List Nat} {p : Nat × Bytes} :
    p ∈ docPairs contents idxs ↔
      p.1 ∈ idxs ∧ contents.getD p.1 [] ≠ [] ∧ p.2 = contents.getD p.1 [] := by
  obtain ⟨i, c⟩ := p
  simp only [docPairs, List.mem_filterMap]
  constructor
  · rintro ⟨j, hj, hfj⟩
    split at hfj
    · cases hfj
    · rename_i hne
      cases hfj
      exact ⟨hj, hne, rfl⟩
  · rintro ⟨hmem, hne, hc⟩
    refine ⟨i, hmem, ?_⟩
    rw [if_neg hne, hc]

lemma pairwise_fst_docPairs {contents : List Bytes} :
    ∀ {idxs : List Nat}, List.Pairwise (· < ·) idxs →
      List.Pairwise (fun a b => a.1 < b.1) (docPairs contents idxs) := by
  intro idxs
  induction idxs with
  | nil => intro _; simp [docPairs]
  | cons i rest ih =>
      intro h
      rw [List.pairwise_cons] at h
      obtain ⟨hi, hrest⟩ := h
      by_cases hc : contents.getD i [] = []
      · rw [docPairs, List.filterMap_cons_none (by rw [if_pos hc])]
        exact ih hrest
      · rw [docPairs, List.filterMap_cons_some (by rw [if_neg hc])]
        rw [List.pairwise_cons]
        refine ⟨?_, ih hrest⟩
        intro q hq
        exact hi q.1 (mem_docPairs.mp hq).1

lemma docPairs_append (contents : List Bytes) (l1 l2 : List Nat) :
    docPairs contents (l1 ++ l2) = docPairs contents l1 ++ docPairs contents l2 :=
  List.filterMap_append l1 l2 _

lemma docPairs_flatMap (contents : List Bytes) (rs : List Nat) (g : Nat → List Nat) :
    docPairs contents (rs.flatMap g) = rs.flatMap (fun r => docPairs contents (g r)) := by
  induction rs with
  | nil => simp [docPairs]
  | cons r rest ih => rw [List.flatMap_cons, List.flatMap_cons, docPairs_append, ih]

/-- The documents all workers read, in rank-major order, are a permutation
of the documents the serial run reads. -/
lemma docPairs_partition_perm {contents : List Bytes} {W : Nat} (hW : 1 ≤ W) :
    ((List.range W).flatMap (fun r =>
        docPairs contents (partitionIndices contents.length W r))).Perm
      (docPairs contents (List.range contents.length)) := by
  rw [← docPairs_flatMap]
  exact List.Perm.filterMap _ (flatMap_partition_perm contents.length W hW)

/-! ### Vocabularies -/

lemma keys_countPairs_good {contents : List Bytes} {idxs : List Nat}
    {q : Nat × CountMap} (hq : q ∈ countPairs contents idxs) {x : Bytes}
    (hx : x ∈ mapKeys q.2) : x ≠ [] ∧ (10 : Nat) ∉ x := by
  simp only [countPairs, List.mem_map] at hq
  obtain ⟨p, _, rfl⟩ := hq
  rw [mem_keys_count] at hx
  have h := tokenize_document_good hx
  exact ⟨h.1, not_mem_of_all_lower h.2 (by decide)⟩

lemma mem_localVocab {contents : List Bytes} {W r : Nat} {x : Bytes} :
    x ∈ localVocab contents W r ↔
      ∃ q ∈ localPairs contents W r, x ∈ mapKeys q.2 := by
  rw [localVocab, mem_vocabFold]
  simp only [List.mem_map, List.not_mem_nil, false_or]
  constructor
  · rintro ⟨m, ⟨q, hq, rfl⟩, hx⟩
    exact ⟨q, hq, hx⟩
  · rintro ⟨q, hq, hx⟩
    exact ⟨q.2, ⟨q, hq, rfl⟩, hx⟩

lemma sorted_localVocab (contents : List Bytes) (W r : Nat) :
    SortedBytes (localVocab contents W r) :=
  sorted_vocabFold _ List.Pairwise.nil

lemma good_localVocab {contents : List Bytes} {W r : Nat} {x : Bytes}
    (hx : x ∈ localVocab contents W r) : x ≠ [] ∧ (10 : Nat) ∉ x := by
  obtain ⟨q, hq, hk⟩ := mem_localVocab.mp hx
  rw [localPairs] at hq
  exact keys_countPairs_good hq hk

lemma roundTrip_localVocab (contents : List Bytes) (W r : Nat) :
    split_by_newline (join_words_with_newline (localVocab contents W r)) =
      localVocab contents W r :=
  split_join (fun _ hw => good_localVocab hw)

lemma mem_foldl_insertAll (g : Nat → List Bytes) {x : Bytes} :
    ∀ (rs : List Nat) (acc : List Bytes),
      x ∈ rs.foldl (fun acc r => (g r).foldl (fun a w => setInsert w a) acc) acc ↔
        x ∈ acc ∨ ∃ r ∈ rs, x ∈ g r := by
  intro rs
  induction rs with
  | nil => simp
  | cons r rest ih =>
      intro acc
      simp only [List.foldl_cons, ih, mem_foldl_setInsert, List.mem_cons]
      constructor
      · rintro ((h | h) | ⟨r', hr', hx⟩)
        · exact Or.inl h
        · exact Or.inr ⟨r, Or.inl rfl, h⟩
        · exact Or.inr ⟨r', Or.inr hr', hx⟩
      · rintro (h | ⟨r', hr' | hr', hx⟩)
        · exact Or.inl (Or.inl h)
        · subst hr'; exact Or.inl (Or.inr hx)
        · exact Or.inr ⟨r', hr', hx⟩

lemma sorted_foldl_insertAll (g : Nat → List Bytes) :
    ∀ (rs : List Nat) {acc : List Bytes}, SortedBytes acc →
      SortedBytes (rs.foldl
        (fun acc r => (g r).foldl (fun a w => setInsert w a) acc) acc) := by
  intro rs
  induction rs with
  | nil => intro acc h; exact h
  | cons r rest ih =>
      intro acc h
      exact ih (sorted_foldl_setInsert _ h)

lemma mem_globalVocabSet {contents : List Bytes} {W : Nat} {x : Bytes} :
    x ∈ globalVocabSet contents W ↔ ∃ r < W, x ∈ localVocab contents W r := by
  rw [globalVocabSet, mem_foldl_insertAll
    (fun r => split_by_newline (join_words_with_newline (localVocab contents W r)))]
  simp only [roundTrip_localVocab, List.not_mem_nil, false_or, List.mem_range]

lemma sorted_globalVocabSet (contents : List Bytes) (W : Nat) :
    SortedBytes (globalVocabSet contents W) :=
  sorted_foldl_insertAll _ _ List.Pairwise.nil

lemma good_globalVocabSet {contents : List Bytes} {W : Nat} {x : Bytes}
    (hx : x ∈ globalVocabSet contents W) : x ≠ [] ∧ (10 : Nat) ∉ x := by
  obtain ⟨r, _, hx'⟩ := mem_globalVocabSet.mp hx
  exact good_localVocab hx'

/-- After the broadcast, every worker deserializes the coordinator's union
set exactly. -/
lemma workerVocabulary_eq_globalVocabSet (contents : List Bytes) (W r : Nat) :
    workerVocabulary contents W r = globalVocabSet contents W := by
  rw [workerVocabulary, broadcastVocab]
  exact split_join (fun _ hw => good_globalVocabSet hw)

lemma mem_build_vocabulary {ms : List CountMap} {x : Bytes} :
    x ∈ build_vocabulary ms ↔ ∃ m ∈ ms, x ∈ mapKeys m := by
  rw [build_vocabulary, mem_vocabFold]
  simp

lemma sorted_build_vocabulary (ms : List CountMap) :
    SortedBytes (build_vocabulary ms) :=
  sorted_vocabFold _ List.Pairwise.nil

lemma countPairs_partition_perm {contents : List Bytes} {W : Nat} (hW : 1 ≤ W) :
    ((List.range W).flatMap (fun r => localPairs contents W r)).Perm
      (countPairs contents (List.range contents.length)) := by
  have hmap := List.map_flatMap
    (fun p : Nat × Bytes => (p.1, count_tokens (tokenize_document p.2)))
    (fun r => docPairs contents (partitionIndices contents.length W r))
    (List.range W)
  simp only [localPairs, countPairs]
  rw [← hmap]
  exact List.Perm.map _ (@docPairs_partition_perm contents W hW)

lemma exists_key_union_iff {contents : List Bytes} {W : Nat} (hW : 1 ≤ W)
    {x : Bytes} :
    (∃ r < W, ∃ q ∈ localPairs contents W r, x ∈ mapKeys q.2) ↔
      ∃ q ∈ countPairs contents (List.range contents.length), x ∈ mapKeys q.2 := by
  constructor
  · rintro ⟨r, hr, q, hq, hx⟩
    refine ⟨q, ?_, hx⟩
    refine (countPairs_partition_perm hW).mem_iff.mp ?_
    rw [List.mem_flatMap]
    exact ⟨r, List.mem_range.mpr hr, hq⟩
  · rintro ⟨q, hq, hx⟩
    have hm := (countPairs_partition_perm hW).mem_iff.mpr hq
    rw [List.mem_flatMap] at hm
    obtain ⟨r, hr, hq'⟩ := hm
    exact ⟨r, List.mem_range.mp hr, q, hq', hx⟩

/-- The synchronized vocabulary each worker ends up with is exactly the
serial `build_vocabulary` of all surviving documents' count maps. -/
lemma workerVocabulary_eq_serial {contents : List Bytes} {W r : Nat}
    (hW : 1 ≤ W) :
    workerVocabulary contents W r =
      build_vocabulary ((countPairs contents (List.range contents.length)).map
        (fun q => q.2)) := by
  rw [workerVocabulary_eq_globalVocabSet]
  refine sortedBytes_ext (sorted_globalVocabSet contents W)
    (sorted_build_vocabulary _) ?_
  intro x
  rw [mem_globalVocabSet, mem_build_vocabulary]
  constructor
  · rintro ⟨r', hr', hx⟩
    obtain ⟨q, hq, hk⟩ := mem_localVocab.mp hx
    obtain ⟨q', hq', hk'⟩ := (exists_key_union_iff hW).mp ⟨r', hr', q, hq, hk⟩
    exact ⟨q'.2, List.mem_map.mpr ⟨q', hq', rfl⟩, hk'⟩
  · rintro ⟨m, hm, hk⟩
    obtain ⟨q, hq, rfl⟩ := List.mem_map.mp hm
    obtain ⟨r', hr', q', hq', hk'⟩ := (exists_key_union_iff hW).mpr ⟨q, hq, hk⟩
    exact ⟨r', hr', mem_localVocab.mpr ⟨q', hq', hk'⟩⟩

/-! ### Row construction -/

lemma findIndexOf_eq_none {w : Bytes} :
    ∀ {vocab : List Bytes}, findIndexOf w vocab = none ↔ w ∉ vocab := by
  intro vocab
  induction vocab with
  | nil => simp [findIndexOf]
  | cons v rest ih =>
      simp only [findIndexOf, List.mem_cons]
      split
      · rename_i h
        subst h
        simp
      · rename_i h
        rw [Option.map_eq_none', ih]
        constructor
        · intro hn
          rintro (rfl | hmem)
          · exact h rfl
          · exact hn hmem
        · intro hn hmem
          exact hn (Or.inr hmem)

lemma findIndexOf_some {w : Bytes} :
    ∀ {vocab : List Bytes} {p : Nat}, findIndexOf w vocab = some p →
      p < vocab.length ∧ vocab.getD p [] = w := by
  intro vocab
  induction vocab with
  | nil => intro p h; cases h
  | cons v rest ih =>
      intro p h
      simp only [findIndexOf] at h
      split at h
      · rename_i hv
        cases h
        exact ⟨Nat.succ_pos _, by rw [List.getD_cons_zero]; exact hv⟩
      · rw [Option.map_eq_some'] at h
        obtain ⟨p', hp', rfl⟩ := h
        obtain ⟨h1, h2⟩ := ih hp'
        refine ⟨Nat.succ_lt_succ h1, ?_⟩
        rw [List.getD_cons_succ]
        exact h2

lemma findIndexOf_getD :
    ∀ {vocab : List Bytes}, vocab.Nodup → ∀ {j : Nat}, j < vocab.length →
      findIndexOf (vocab.getD j []) vocab = some j := by
  intro vocab
  induction vocab with
  | nil => intro _ j hj; exact absurd hj (Nat.not_lt_zero j)
  | cons v rest ih =>
      intro hv j hj
      rw [List.nodup_cons] at hv
      cases j with
      | zero => simp [findIndexOf, List.getD_cons_zero]
      | succ j' =>
          rw [List.getD_cons_succ]
          have hj' : j' < rest.length := Nat.lt_of_succ_lt_succ hj
          have hmem : rest.getD j' [] ∈ rest := by
            rw [List.getD_eq_getElem _ _ hj']
            exact List.getElem_mem hj'
          have hne : ¬ v = rest.getD j' [] := fun heq => hv.1 (heq ▸ hmem)
          simp only [findIndexOf, if_neg hne, ih hv.2 hj', Option.map_some']

lemma buildRow_foldl_length (vocab : List Bytes) :
    ∀ (m : CountMap) (row : List Nat),
      (m.foldl (fun row kv =>
        match findIndexOf kv.1 vocab with
        | some p => row.set p kv.2
        | none => row) row).length = row.length := by
  intro m
  induction m with
  | nil => intro row; rfl
  | cons kv m' ih =>
      intro row
      rw [List.foldl_cons, ih]
      split
      · rw [List.length_set]
      · rfl

lemma getD_set_eq {l : List Nat} {p : Nat} (v : Nat) (h : p < l.length) :
    (l.set p v).getD p 0 = v := by
  have hl : p < (l.set p v).length := by rw [List.length_set]; exact h
  rw [List.getD_eq_getElem _ _ hl]
  exact List.getElem_set_self hl

lemma getD_set_ne {l : List Nat} {p j : Nat} (v : Nat) (h : p ≠ j) :
    (l.set p v).getD j 0 = l.getD j 0 := by
  by_cases hj : j < l.length
  · have hl : j < (l.set p v).length := by rw [List.length_set]; exact hj
    rw [List.getD_eq_getElem _ _ hl, List.getD_eq_getElem _ _ hj]
    exact List.getElem_set_ne h hl
  · have h1 : l.length ≤ j := Nat.le_of_not_lt hj
    rw [List.getD_eq_default _ _ h1,
      List.getD_eq_default _ _ (by rw [List.length_set]; exact h1)]

lemma buildRow_aux {vocab : List Bytes} (hv : vocab.Nodup) :
    ∀ (m : CountMap) (row : List Nat), row.length = vocab.length →
      (mapKeys m).Nodup → ∀ j : Nat, j < vocab.length →
      (m.foldl (fun row kv =>
        match findIndexOf kv.1 vocab with
        | some p => row.set p kv.2
        | none => row) row).getD j 0 =
        (mapLookup m (vocab.getD j [])).getD (row.getD j 0) := by
  intro m
  induction m with
  | nil =>
      intro row _ _ j _
      simp [mapLookup]
  | cons kv m' ih =>
      obtain ⟨k, v⟩ := kv
      intro row hlen hnd j hj
      simp only [mapKeys, List.map_cons, List.nodup_cons] at hnd
      rw [List.foldl_cons]
      cases hfind : findIndexOf k vocab with
      | none =>
          have hk : k ∉ vocab := findIndexOf_eq_none.mp hfind
          simp only [hfind]
          rw [ih row hlen hnd.2 j hj]
          have hne : ¬ vocab.getD j [] = k := by
            intro heq
            refine hk ?_
            rw [← heq, List.getD_eq_getElem _ _ hj]
            exact List.getElem_mem hj
          rw [mapLookup, if_neg hne]
      | some p =>
          obtain ⟨hp, hpk⟩ := findIndexOf_some hfind
          simp only [hfind]
          rw [ih (row.set p v) (by rw [List.length_set]; exact hlen) hnd.2 j hj]
          by_cases hjk : vocab.getD j [] = k
          · have hpj : p = j := by
              have h0 := findIndexOf_getD hv hj
              rw [hjk, hfind] at h0
              cases h0
              rfl
            subst hpj
            have hlk : mapLookup m' k = none := by
              rw [mapLookup_eq_none]
              exact hnd.1
            rw [hjk, hlk, mapLookup, if_pos rfl]
            simp only [Option.getD_some, Option.getD_none]
            exact getD_set_eq v (by rw [hlen]; exact hj)
          · have hpj : p ≠ j := by
              intro heq
              subst heq
              exact hjk hpk
            rw [getD_set_ne v hpj, mapLookup, if_neg hjk]

/-- The parallel row construction produces exactly the serial dense row:
the count of `vocabulary[i]` at position `i`, 0 when absent. -/
lemma buildRowParallel_eq {vocab : List Bytes} (hv : vocab.Nodup)
    {m : CountMap} (hm : (mapKeys m).Nodup) :
    buildRowParallel vocab m = vocab.map (fun w => (mapLookup m w).getD 0) := by
  refine List.ext_getElem ?_ ?_
  · rw [buildRowParallel, buildRow_foldl_length, List.length_replicate,
      List.length_map]
  · intro j h1 h2
    have hj : j < vocab.length := by
      rw [List.length_map] at h2
      exact h2
    have haux := buildRow_aux hv m (List.replicate vocab.length 0)
      (List.length_replicate _ _) hm j hj
    unfold buildRowParallel at h1 ⊢
    rw [← List.getD_eq_getElem _ 0 h1, haux, List.getElem_map]
    have hrep : (List.replicate vocab.length 0).getD j 0 = 0 := by
      rw [List.getD_eq_getElem _ _ (by rw [List.length_replicate]; exact hj)]
      exact List.getElem_replicate _ _
    rw [hrep, List.getD_eq_getElem _ _ hj]

/-! ### Reassembly at the coordinator -/

lemma keys_nodup_of_mem_countPairs {contents : List Bytes} {idxs : List Nat}
    {q : Nat × CountMap} (hq : q ∈ countPairs contents idxs) :
    (mapKeys q.2).Nodup := by
  simp only [countPairs, List.mem_map] at hq
  obtain ⟨p, _, rfl⟩ := hq
  exact (sortedKeys_count _).nodup

/-- Two lists that are permutations of each other and both strictly sorted
on their first components are equal. -/
lemma pairLt_sorted_unique {l₁ l₂ : List (Nat × List Nat)} (hp : l₁.Perm l₂)
    (h1 : List.Pairwise (fun a b => a.1 < b.1) l₁)
    (h2 : List.Pairwise (fun a b => a.1 < b.1) l₂) : l₁ = l₂ := by
  refine @List.eq_of_perm_of_sorted _ (fun a b => a.1 < b.1 ∨ a = b) ⟨?_⟩ _ _ hp ?_ ?_
  · rintro a b (hab | rfl) hba
    · rcases hba with hba | rfl
      · exact absurd (Nat.lt_trans hab hba) (Nat.lt_irrefl _)
      · rfl
    · rfl
  · exact h1.imp (fun h => Or.inl h)
  · exact h2.imp (fun h => Or.inl h)

lemma pairwise_lt_countPairs (contents : List Bytes) :
    List.Pairwise (fun a b => a.1 < b.1)
      (countPairs contents (List.range contents.length)) := by
  rw [countPairs, List.pairwise_map]
  exact (pairwise_fst_docPairs (List.pairwise_lt_range _)).imp (fun h => h)

/-- Sorting the rank-major gathered rows by document index reconstructs the
serial traversal order exactly. -/
lemma insertionSort_gathered_eq {contents : List Bytes} {W : Nat} (hW : 1 ≤ W) :
    List.insertionSort rowPairLe (gatheredRows contents W) =
      (countPairs contents (List.range contents.length)).map
        (fun q => (q.1, buildRowParallel (workerVocabulary contents W 0) q.2)) := by
  have hmap : gatheredRows contents W =
      ((List.range W).flatMap (fun r => localPairs contents W r)).map
        (fun q => (q.1, buildRowParallel (workerVocabulary contents W 0) q.2)) := by
    rw [gatheredRows, List.map_flatMap]
  have hperm : (gatheredRows contents W).Perm
      ((countPairs contents (List.range contents.length)).map
        (fun q => (q.1, buildRowParallel (workerVocabulary contents W 0) q.2))) := by
    rw [hmap]
    exact List.Perm.map _ (countPairs_partition_perm hW)
  have hsorted2 : List.Pairwise (fun a b : Nat × List Nat => a.1 < b.1)
      ((countPairs contents (List.range contents.length)).map
        (fun q => (q.1, buildRowParallel (workerVocabulary contents W 0) q.2))) := by
    rw [List.pairwise_map]
    exact (pairwise_lt_countPairs contents).imp (fun h => h)
  have hperm2 : (List.insertionSort rowPairLe (gatheredRows contents W)).Perm
      ((countPairs contents (List.range contents.length)).map
        (fun q => (q.1, buildRowParallel (workerVocabulary contents W 0) q.2))) :=
    (List.perm_insertionSort rowPairLe _).trans hperm
  have hne : List.Pairwise (fun a b : Nat × List Nat => a.1 ≠ b.1)
      (List.insertionSort rowPairLe (gatheredRows contents W)) :=
    (List.Perm.pairwise_iff (fun h => h.symm) hperm2).mpr
      (hsorted2.imp (fun h => Nat.ne_of_lt h))
  have hsorted1 : List.Pairwise rowPairLe
      (List.insertionSort rowPairLe (gatheredRows contents W)) :=
    List.sorted_insertionSort rowPairLe (gatheredRows contents W)
  have hlt : List.Pairwise (fun a b : Nat × List Nat => a.1 < b.1)
      (List.insertionSort rowPairLe (gatheredRows contents W)) :=
    (hsorted1.and hne).imp (fun h => Nat.lt_of_le_of_ne h.1 h.2)
  exact pairLt_sorted_unique hperm2 hlt hsorted2

/-- Full refinement: for every corpus and every worker count, the parallel
run writes exactly what the serial run writes (same vocabulary, same
matrix, same document order, and a file is written in the same cases). -/
lemma parallelRun_eq_serialRun (contents : List Bytes) (W : Nat) (hW : 1 ≤ W) :
    parallelRun contents W = serialRun contents := by
  by_cases hc : contents = []
  · simp only [parallelRun, serialRun, if_pos hc]
  · simp only [parallelRun, serialRun]
    rw [if_neg hc, if_neg hc, insertionSort_gathered_eq hW,
      workerVocabulary_eq_serial hW]
    by_cases hp : countPairs contents (List.range contents.length) = []
    · rw [hp]
      simp
    · rw [if_neg (fun h => hp (List.map_eq_nil_iff.mp h)), if_neg hp]
      have hv : (build_vocabulary ((countPairs contents
          (List.range contents.length)).map (fun q => q.2))).Nodup :=
        (sorted_build_vocabulary _).nodup
      have hrows : ((countPairs contents (List.range contents.length)).map
          (fun q => (q.1, buildRowParallel (build_vocabulary ((countPairs contents
            (List.range contents.length)).map (fun q => q.2))) q.2))).map
            (fun p => p.2) =
          build_matrix ((countPairs contents (List.range contents.length)).map
            (fun q => q.2))
            (build_vocabulary ((countPairs contents
              (List.range contents.length)).map (fun q => q.2))) := by
        rw [List.map_map, build_matrix, List.map_map]
        exact List.map_congr_left
          (fun q hq => buildRowParallel_eq hv (keys_nodup_of_mem_countPairs hq))
      have hfst : ((countPairs contents (List.range contents.length)).map
          (fun q => (q.1, buildRowParallel (build_vocabulary ((countPairs contents
            (List.range contents.length)).map (fun q => q.2))) q.2))).map
            (fun p => p.1) =
          (countPairs contents (List.range contents.length)).map
            (fun p => p.1) := by
        rw [List.map_map]
        rfl
      rw [hrows, hfst]

/-! ### Remaining helper lemmas for the claims -/

lemma sorted_workerVocabulary (contents : List Bytes) (W r : Nat) :
    SortedBytes (workerVocabulary contents W r) := by
  rw [workerVocabulary_eq_globalVocabSet]
  exact sorted_globalVocabSet contents W

lemma mem_workerVocabulary {contents : List Bytes} {W r : Nat} {x : Bytes} :
    x ∈ workerVocabulary contents W r ↔
      ∃ r' < W, ∃ i ∈ partitionIndices contents.length W r',
        contents.getD i [] ≠ [] ∧ x ∈ tokenize_document (contents.getD i []) := by
  rw [workerVocabulary_eq_globalVocabSet, mem_globalVocabSet]
  constructor
  · rintro ⟨r', hr', hx⟩
    obtain ⟨q, hq, hk⟩ := mem_localVocab.mp hx
    rw [localPairs] at hq
    simp only [countPairs, List.mem_map] at hq
    obtain ⟨p, hp, rfl⟩ := hq
    rw [mem_keys_count] at hk
    obtain ⟨hmem, hne, hpc⟩ := mem_docPairs.mp hp
    exact ⟨r', hr', p.1, hmem, hne, by rw [← hpc]; exact hk⟩
  · rintro ⟨r', hr', i, hmem, hne, hx⟩
    refine ⟨r', hr', mem_localVocab.mpr ?_⟩
    refine ⟨(i, count_tokens (tokenize_document (contents.getD i []))), ?_, ?_⟩
    · rw [localPairs]
      simp only [countPairs, List.mem_map]
      exact ⟨(i, contents.getD i []), mem_docPairs.mpr ⟨hmem, hne, rfl⟩, rfl⟩
    · rw [mem_keys_count]
      exact hx

lemma tokenizeGo_nil_of_no_term :
    ∀ {content : List Nat}, (∀ b ∈ content, isTermByte b = false) →
      tokenizeGo content [] = [] := by
  intro content
  induction content with
  | nil => intro _; rfl
  | cons b rest ih =>
      intro h
      have hb : isTermByte b = false := h b (List.mem_cons_self b rest)
      simp only [tokenizeGo, hb, Bool.false_eq_true, if_false, if_pos rfl]
      exact ih (fun b' hb' => h b' (List.mem_cons_of_mem b hb'))

lemma docPairs_eq_nil_of_all_empty {contents : List Bytes}
    (h : ∀ i, contents.getD i [] = []) :
    ∀ (idxs : List Nat), docPairs contents idxs = [] := by
  intro idxs
  induction idxs with
  | nil => rfl
  | cons i rest ih =>
      rw [docPairs, List.filterMap_cons_none (by rw [if_pos (h i)])]
      exact ih

lemma getD_map_row {V : List Bytes} (f : Bytes → Nat) {j : Nat}
    (hj : j < V.length) : (V.map f).getD j 0 = f (V.getD j []) := by
  rw [List.getD_eq_getElem _ _ (by rw [List.length_map]; exact hj),
    List.getElem_map, List.getD_eq_getElem _ _ hj]

/-! ### The claims -/

/-- C1: for every corpus of resolved document contents and every worker
count `W ≥ 1`, the distributed run writes exactly what the single-worker
serial baseline writes: same vocabulary (set and order), same matrix
values, same document order, and a file is written in exactly the same
cases — so the output is independent of `W`. -/
theorem claim_c1_parallel_eq_serial (contents : List Bytes) (W : Nat)
    (hW : 1 ≤ W) : parallelRun contents W = serialRun contents :=
  parallelRun_eq_serialRun contents W hW

theorem claim_c1_witness : 1 ≤ 3 ∧
    parallelRun [strBytes ("a b"), [], strBytes ("b a c")] 3 =
      serialRun [strBytes ("a b"), [], strBytes ("b a c")] :=
  ⟨by decide, claim_c1_parallel_eq_serial [strBytes ("a b"), [], strBytes ("b a c")] 3 (by decide)⟩

/-- C2: after the four-phase synchronization every worker deserializes the
same broadcast bytes, so all workers hold the identical vocabulary; that
vocabulary contains exactly the terms of the assigned, successfully-read
documents of all workers, strictly sorted by raw bytes; and if no document
contributes a term the vocabulary is empty (no error). -/
theorem claim_c2_vocabulary_sync (contents : List Bytes) (W : Nat) :
    (∀ r r', workerVocabulary contents W r = workerVocabulary contents W r') ∧
    (∀ x, x ∈ workerVocabulary contents W 0 ↔
      ∃ r < W, ∃ i ∈ partitionIndices contents.length W r,
        contents.getD i [] ≠ [] ∧ x ∈ tokenize_document (contents.getD i [])) ∧
    SortedBytes (workerVocabulary contents W 0) ∧
    ((∀ i, tokenize_document (contents.getD i []) = []) →
      workerVocabulary contents W 0 = []) := by
  refine ⟨?_, fun x => mem_workerVocabulary, sorted_workerVocabulary contents W 0, ?_⟩
  · intro r r'
    rw [workerVocabulary_eq_globalVocabSet, workerVocabulary_eq_globalVocabSet]
  · intro hall
    rw [List.eq_nil_iff_forall_not_mem]
    intro x hx
    obtain ⟨r, _, i, _, _, hx'⟩ := mem_workerVocabulary.mp hx
    rw [hall i] at hx'
    exact List.not_mem_nil x hx'

/-- C3: the tokenizer is total, its output is exactly the maximal runs of
term-forming bytes each lowercased with empty runs discarded, and empty
input yields zero terms. -/
theorem claim_c3_tokenizer_runs :
    (∀ content : List Nat, tokenize_document content = specTokenRuns content) ∧
    tokenize_document [] = [] := by
  refine ⟨?_, rfl⟩
  intro content
  obtain ⟨h', t', hs⟩ : ∃ h' t',
      content.splitOnP (fun b => !isTermByte b) = h' :: t' := by
    cases hs : content.splitOnP (fun b => !isTermByte b) with
    | nil => exact absurd hs (List.splitOnP_ne_nil _ _)
    | cons x xs => exact ⟨x, xs, rfl⟩
  unfold tokenize_document specTokenRuns
  rw [tokenizeGo_eq_runs, hs]
  simp [List.headI, List.tail_cons, List.map_cons, List.nil_append]

/-- C4: worker `r` of `W` is assigned exactly the ordered index set
`{r, r+W, r+2W, ...} ∩ [0, D)`, every document index below `D` is assigned
to exactly one worker, and the assignment is a pure function of
`(D, W, r)`. -/
theorem claim_c4_partition (D W r : Nat) (hW : 1 ≤ W) :
    (∀ i, i ∈ partitionIndices D W r ↔ ((∃ k, i = r + k * W) ∧ i < D)) ∧
    List.Pairwise (· < ·) (partitionIndices D W r) ∧
    (∀ i < D, ∃! r', r' < W ∧ i ∈ partitionIndices D W r') := by
  refine ⟨fun i => mem_partitionIndices hW,
    pairwise_lt_partitionIndices D W r hW, ?_⟩
  intro i hi
  refine ⟨i % W, ⟨Nat.mod_lt i hW,
    (mem_partitionIndices_mod hW (Nat.mod_lt i hW)).mpr ⟨hi, rfl⟩⟩, ?_⟩
  rintro r' ⟨hr', hmem⟩
  exact ((mem_partitionIndices_mod hW hr').mp hmem).2.symm

theorem claim_c4_witness : 1 ≤ 2 ∧
    ((∀ i, i ∈ partitionIndices 5 2 1 ↔ ((∃ k, i = 1 + k * 2) ∧ i < 5)) ∧
     List.Pairwise (· < ·) (partitionIndices 5 2 1) ∧
     (∀ i < 5, ∃! r', r' < 2 ∧ i ∈ partitionIndices 5 2 r')) :=
  ⟨by decide, claim_c4_partition 5 2 1 (by decide)⟩


/-- C5: the scenario's expected matrix rows `[0,0,0,1,1]` and
`[1,1,1,0,1]` are not what the program produces on
`["the cat sat", "the dog ran"]` with 2 workers (the first claimed row
misses the `cat` count; the second claims a `cat` count the document does
not have). -/
theorem claim_c5_counterexample :
    parallelRun [strBytes ("the cat sat"), strBytes ("the dog ran")] 2 ≠
      some ⟨[strBytes ("cat"), strBytes ("dog"), strBytes ("ran"), strBytes ("sat"),
             strBytes ("the")],
            [[0, 0, 0, 1, 1], [1, 1, 1, 0, 1]], [0, 1]⟩ := by decide

/-- C5 (amended): with corpus `["the cat sat", "the dog ran"]` and 2
workers, round-robin gives worker 0 document 0 and worker 1 document 1,
the vocabulary is `[cat, dog, ran, sat, the]`, and the matrix rows in
preserved document order are `[1,0,0,1,1]` and `[0,1,1,0,1]`. -/
theorem claim_c5_amended :
    partitionIndices 2 2 0 = [0] ∧ partitionIndices 2 2 1 = [1] ∧
    parallelRun [strBytes ("the cat sat"), strBytes ("the dog ran")] 2 =
      some ⟨[strBytes ("cat"), strBytes ("dog"), strBytes ("ran"), strBytes ("sat"),
             strBytes ("the")],
            [[1, 0, 0, 1, 1], [0, 1, 1, 0, 1]], [0, 1]⟩ := by decide

/-- C6: a document whose content has no term-forming byte yields a count
map with zero entries, and its dense row is `vocab.length` zeros — length
0 exactly when the vocabulary is empty. -/
theorem claim_c6_empty_document (content : List Nat) (vocab : List Bytes)
    (h : ∀ b ∈ content, isTermByte b = false) :
    count_tokens (tokenize_document content) = [] ∧
    build_matrix [count_tokens (tokenize_document content)] vocab =
      [List.replicate vocab.length 0] ∧
    (vocab = [] →
      build_matrix [count_tokens (tokenize_document content)] vocab = [[]]) := by
  have htok : tokenize_document content = [] := tokenizeGo_nil_of_no_term h
  have hcount : count_tokens (tokenize_document content) = [] := by
    rw [htok]
    rfl
  have hrow : ∀ v : List Bytes,
      v.map (fun w => (mapLookup ([] : CountMap) w).getD 0) =
        List.replicate v.length 0 := by
    intro v
    induction v with
    | nil => rfl
    | cons w ws ih => simp [mapLookup, List.replicate_succ, ih]
  refine ⟨hcount, ?_, ?_⟩
  · rw [hcount]
    simp only [build_matrix, List.map_cons, List.map_nil]
    rw [hrow vocab]
  · intro hv
    subst hv
    rw [hcount]
    rfl

theorem claim_c6_witness :
    (∀ b ∈ strBytes (" .,;"), isTermByte b = false) ∧
    (count_tokens (tokenize_document (strBytes (" .,;"))) = [] ∧
     build_matrix [count_tokens (tokenize_document (strBytes (" .,;")))]
       [strBytes ("a")] = [List.replicate [strBytes ("a")].length 0] ∧
     ([strBytes ("a")] = ([] : List Bytes) →
       build_matrix [count_tokens (tokenize_document (strBytes (" .,;")))]
         [strBytes ("a")] = [[]])) :=
  ⟨by decide,
   claim_c6_empty_document (strBytes (" .,;")) [strBytes ("a")] (by decide)⟩

/-- C7: a nonempty corpus in which no document is readable does NOT abort
before the synchronization phases — the only early return guards the empty
document list, so with corpus `[unreadable]` the run still reaches the
first gather (though it writes no output file). -/
theorem claim_c7_counterexample :
    [([] : Bytes)] ≠ ([] : List Bytes) ∧
    (∀ i, [([] : Bytes)].getD i [] = []) ∧
    parallelReachesSync [([] : Bytes)] = true ∧
    parallelRun [([] : Bytes)] 2 = none := by
  refine ⟨by decide, ?_, by decide, by decide⟩
  intro i
  cases i with
  | zero => rfl
  | succ n => rfl

/-- C7 (amended): an empty corpus aborts before any synchronization phase
and writes nothing; a nonempty corpus with no readable documents proceeds
through the synchronization phases and aborts only the writing step (the
empty result is reported), so no output file is written in either case. -/
theorem claim_c7_amended (contents : List Bytes) (W : Nat) :
    (contents = [] →
      parallelReachesSync contents = false ∧ parallelRun contents W = none) ∧
    ((∀ i, contents.getD i [] = []) → parallelRun contents W = none) := by
  constructor
  · intro hc
    subst hc
    exact ⟨rfl, rfl⟩
  · intro hall
    by_cases hc : contents = []
    · subst hc
      rfl
    · have hjoin : gatheredRows contents W = [] := by
        rw [gatheredRows, List.flatMap_eq_nil_iff]
        intro r _
        rw [localPairs, countPairs, docPairs_eq_nil_of_all_empty hall]
        rfl
      simp only [parallelRun]
      rw [if_neg hc, hjoin]
      rfl

theorem claim_c7_witness :
    parallelReachesSync ([] : List Bytes) = false ∧
    parallelRun ([] : List Bytes) 2 = none ∧
    parallelRun [([] : Bytes)] 3 = none := by
  refine ⟨((claim_c7_amended [] 2).1 rfl).1, ((claim_c7_amended [] 2).1 rfl).2, ?_⟩
  refine (claim_c7_amended [([] : Bytes)] 3).2 ?_
  intro i
  cases i with
  | zero => rfl
  | succ n => rfl


/-- C8: adding a document that introduces a brand-new term does not append
the new column at the end of the old rows: with corpus `["b"]` and added
document `"a"`, the old row `[1]` becomes `[0, 1]` in the rebuilt matrix,
not `[1] ++ [0]` — the new column is inserted at its lexicographic
position. -/
theorem claim_c8_counterexample :
    build_vocabulary [count_tokens (tokenize_document (strBytes ("b")))] =
      [strBytes ("b")] ∧
    build_matrix [count_tokens (tokenize_document (strBytes ("b")))]
      [strBytes ("b")] = [[1]] ∧
    build_vocabulary [count_tokens (tokenize_document (strBytes ("b"))),
      count_tokens (tokenize_document (strBytes ("a")))] =
      [strBytes ("a"), strBytes ("b")] ∧
    (build_matrix [count_tokens (tokenize_document (strBytes ("b"))),
        count_tokens (tokenize_document (strBytes ("a")))]
        [strBytes ("a"), strBytes ("b")]).headI ≠ [1] ++ [0] := by decide

/-- C8 (amended): appending one document `m` grows the vocabulary length
by exactly the number of distinct keys of `m` not already present; the
rebuilt matrix is the old documents' rows (rebuilt against the new
vocabulary) plus one new row; each old document keeps its old value at
each old term's (possibly shifted) column and has zero at every brand-new
term's column — new columns are interleaved lexicographically, not
appended at the end. -/
theorem claim_c8_amended (counts : List CountMap) (m : CountMap)
    (hm : (mapKeys m).Nodup) :
    (build_vocabulary (counts ++ [m])).length =
      (build_vocabulary counts).length +
        ((mapKeys m).filter
          (fun w => decide (w ∉ build_vocabulary counts))).length ∧
    build_matrix (counts ++ [m]) (build_vocabulary (counts ++ [m])) =
      build_matrix counts (build_vocabulary (counts ++ [m])) ++
        [(build_vocabulary (counts ++ [m])).map
          (fun w => (mapLookup m w).getD 0)] ∧
    (∀ md ∈ counts, ∀ j j' : Nat, j < (build_vocabulary counts).length →
      j' < (build_vocabulary (counts ++ [m])).length →
      (build_vocabulary (counts ++ [m])).getD j' [] =
        (build_vocabulary counts).getD j [] →
      ((build_vocabulary (counts ++ [m])).map
        (fun w => (mapLookup md w).getD 0)).getD j' 0 =
      ((build_vocabulary counts).map
        (fun w => (mapLookup md w).getD 0)).getD j 0) ∧
    (∀ md ∈ counts, ∀ j' : Nat,
      j' < (build_vocabulary (counts ++ [m])).length →
      (build_vocabulary (counts ++ [m])).getD j' [] ∉
        build_vocabulary counts →
      ((build_vocabulary (counts ++ [m])).map
        (fun w => (mapLookup md w).getD 0)).getD j' 0 = 0) := by
  have hmem : ∀ x, x ∈ build_vocabulary (counts ++ [m]) ↔
      x ∈ build_vocabulary counts ∨ x ∈ mapKeys m := by
    intro x
    rw [mem_build_vocabulary, mem_build_vocabulary]
    constructor
    · rintro ⟨md, hmd, hx⟩
      rcases List.mem_append.mp hmd with h | h
      · exact Or.inl ⟨md, h, hx⟩
      · rcases List.mem_singleton.mp h with rfl
        exact Or.inr hx
    · rintro (⟨md, hmd, hx⟩ | hx)
      · exact ⟨md, List.mem_append_left _ hmd, hx⟩
      · exact ⟨m, List.mem_append_right _ (List.mem_singleton_self m), hx⟩
  refine ⟨?_, ?_, ?_, ?_⟩
  · have hnd' : (build_vocabulary (counts ++ [m])).Nodup :=
      (sorted_build_vocabulary _).nodup
    have hnd : (build_vocabulary counts).Nodup :=
      (sorted_build_vocabulary _).nodup
    have hndf : ((mapKeys m).filter
        (fun w => decide (w ∉ build_vocabulary counts))).Nodup :=
      hm.filter _
    have hfin : (build_vocabulary (counts ++ [m])).toFinset =
        (build_vocabulary counts).toFinset ∪
          ((mapKeys m).filter
            (fun w => decide (w ∉ build_vocabulary counts))).toFinset := by
      ext x
      simp only [List.mem_toFinset, Finset.mem_union, List.mem_filter,
        decide_eq_true_eq, hmem]
      by_cases hx : x ∈ build_vocabulary counts
      · simp [hx]
      · simp [hx]
    have hdisj : Disjoint (build_vocabulary counts).toFinset
        ((mapKeys m).filter
          (fun w => decide (w ∉ build_vocabulary counts))).toFinset := by
      rw [Finset.disjoint_left]
      intro x hx hx'
      rw [List.mem_toFinset] at hx
      rw [List.mem_toFinset, List.mem_filter, decide_eq_true_eq] at hx'
      exact hx'.2 hx
    rw [← List.toFinset_card_of_nodup hnd', ← List.toFinset_card_of_nodup hnd,
      ← List.toFinset_card_of_nodup hndf, hfin,
      Finset.card_union_of_disjoint hdisj]
  · rw [build_matrix, build_matrix, List.map_append]
    rfl
  · intro md _ j j' hj hj' heq
    rw [getD_map_row _ hj', getD_map_row _ hj, heq]
  · intro md hmd j' hj' hnotin
    rw [getD_map_row _ hj']
    have hnone : mapLookup md
        ((build_vocabulary (counts ++ [m])).getD j' []) = none := by
      rw [mapLookup_eq_none]
      intro hk
      exact hnotin (mem_build_vocabulary.mpr ⟨md, hmd, hk⟩)
    rw [hnone]
    rfl

theorem claim_c8_witness :
    (mapKeys (count_tokens (tokenize_document (strBytes ("a c"))))).Nodup ∧
    ((build_vocabulary ([count_tokens (tokenize_document (strBytes ("b")))] ++ [count_tokens (tokenize_document (strBytes ("a c")))])).length =
      (build_vocabulary [count_tokens (tokenize_document (strBytes ("b")))]).length +
        ((mapKeys (count_tokens (tokenize_document (strBytes ("a c"))))).filter
          (fun w => decide (w ∉ build_vocabulary [count_tokens (tokenize_document (strBytes ("b")))]))).length ∧
    build_matrix ([count_tokens (tokenize_document (strBytes ("b")))] ++ [count_tokens (tokenize_document (strBytes ("a c")))]) (build_vocabulary ([count_tokens (tokenize_document (strBytes ("b")))] ++ [count_tokens (tokenize_document (strBytes ("a c")))])) =
      build_matrix [count_tokens (tokenize_document (strBytes ("b")))] (build_vocabulary ([count_tokens (tokenize_document (strBytes ("b")))] ++ [count_tokens (tokenize_document (strBytes ("a c")))])) ++
        [(build_vocabulary ([count_tokens (tokenize_document (strBytes ("b")))] ++ [count_tokens (tokenize_document (strBytes ("a c")))])).map
          (fun w => (mapLookup (count_tokens (tokenize_document (strBytes ("a c")))) w).getD 0)] ∧
    (∀ md ∈ [count_tokens (tokenize_document (strBytes ("b")))], ∀ j j' : Nat, j < (build_vocabulary [count_tokens (tokenize_document (strBytes ("b")))]).length →
      j' < (build_vocabulary ([count_tokens (tokenize_document (strBytes ("b")))] ++ [count_tokens (tokenize_document (strBytes ("a c")))])).length →
      (build_vocabulary ([count_tokens (tokenize_document (strBytes ("b")))] ++ [count_tokens (tokenize_document (strBytes ("a c")))])).getD j' [] =
        (build_vocabulary [count_tokens (tokenize_document (strBytes ("b")))]).getD j [] →
      ((build_vocabulary ([count_tokens (tokenize_document (strBytes ("b")))] ++ [count_tokens (tokenize_document (strBytes ("a c")))])).map
        (fun w => (mapLookup md w).getD 0)).getD j' 0 =
      ((build_vocabulary [count_tokens (tokenize_document (strBytes ("b")))]).map
        (fun w => (mapLookup md w).getD 0)).getD j 0) ∧
    (∀ md ∈ [count_tokens (tokenize_document (strBytes ("b")))], ∀ j' : Nat,
      j' < (build_vocabulary ([count_tokens (tokenize_document (strBytes ("b")))] ++ [count_tokens (tokenize_document (strBytes ("a c")))])).length →
      (build_vocabulary ([count_tokens (tokenize_document (strBytes ("b")))] ++ [count_tokens (tokenize_document (strBytes ("a c")))])).getD j' [] ∉
        build_vocabulary [count_tokens (tokenize_document (strBytes ("b")))] →
      ((build_vocabulary ([count_tokens (tokenize_document (strBytes ("b")))] ++ [count_tokens (tokenize_document (strBytes ("a c")))])).map
        (fun w => (mapLookup md w).getD 0)).getD j' 0 = 0)) :=
  ⟨by decide, claim_c8_amended [count_tokens (tokenize_document (strBytes ("b")))] (count_tokens (tokenize_document (strBytes ("a c")))) (by decide)⟩

/-- C9: every emitted token is nonempty and consists only of lowercase
alphanumeric or underscore bytes; in particular no token contains a
newline (10) or comma (44) byte, so the newline-delimited vocabulary
serialization and the comma-separated CSV cells are unambiguous. -/
theorem claim_c9_token_bytes (content : List Nat) (t : Bytes)
    (ht : t ∈ tokenize_document content) :
    t ≠ [] ∧ (∀ b ∈ t, isLowerTermByte b = true) ∧
    (10 : Nat) ∉ t ∧ (44 : Nat) ∉ t := by
  obtain ⟨h1, h2⟩ := tokenize_document_good ht
  exact ⟨h1, h2, not_mem_of_all_lower h2 (by decide),
    not_mem_of_all_lower h2 (by decide)⟩

theorem claim_c9_witness :
    strBytes ("a_9") ∈ tokenize_document (strBytes ("A_9,b")) ∧
    (strBytes ("a_9") ≠ [] ∧
     (∀ b ∈ strBytes ("a_9"), isLowerTermByte b = true) ∧
     (10 : Nat) ∉ strBytes ("a_9") ∧ (44 : Nat) ∉ strBytes ("a_9")) :=
  ⟨by decide, claim_c9_token_bytes (strBytes ("A_9,b")) (strBytes ("a_9")) (by decide)⟩

/-- C10: for a sorted listing of nonempty newline-free words (as a
`std::set` listing is), splitting the newline-joined serialization returns
exactly the listing — same elements, ascending lexicographic order, no
duplicates, losses or additions. -/
theorem claim_c10_round_trip (ws : List Bytes) (hset : SortedBytes ws)
    (hgood : ∀ w ∈ ws, w ≠ [] ∧ (10 : Nat) ∉ w) :
    split_by_newline (join_words_with_newline ws) = ws ∧
    SortedBytes (split_by_newline (join_words_with_newline ws)) ∧
    (split_by_newline (join_words_with_newline ws)).Nodup := by
  have h := split_join hgood
  refine ⟨h, ?_, ?_⟩
  · rw [h]
    exact hset
  · rw [h]
    exact hset.nodup

theorem claim_c10_witness :
    SortedBytes [strBytes ("ab"), strBytes ("b")] ∧
    (∀ w ∈ [strBytes ("ab"), strBytes ("b")], w ≠ [] ∧ (10 : Nat) ∉ w) ∧
    (split_by_newline (join_words_with_newline [strBytes ("ab"), strBytes ("b")]) =
      [strBytes ("ab"), strBytes ("b")] ∧
     SortedBytes (split_by_newline
       (join_words_with_newline [strBytes ("ab"), strBytes ("b")])) ∧
     (split_by_newline
       (join_words_with_newline [strBytes ("ab"), strBytes ("b")])).Nodup) :=
  ⟨by decide, by decide,
   claim_c10_round_trip [strBytes ("ab"), strBytes ("b")] (by decide) (by decide)⟩

end BoW